import Mathlib

/-!
Verification development for data-scripts/build_frequency_lists.py.

The script loads word-frequency files (one per configured dictionary name),
resolves cross-dictionary token ownership by minimum rank, filters out
rare-and-short tokens and tokens containing serialization delimiters, caps
each dictionary, and serializes the result in one of three formats.  The
definitions below are a shallow embedding of that script: Python dicts become
association lists whose order models the (fixed but arbitrary) iteration
order of the interpreter, raised exceptions become Option/Except failures,
and the stable `list.sort(key=itemgetter(1))` becomes a stable insertion
sort by rank.
-/

namespace BuildFrequencyLists

/-- Uncaught Python exceptions that the loader can raise:
an IndexError from `line.split()[0]` on a field-free line, and the NameError
from the undefined variable `freq_list` in the missing-file warning. -/
inductive PyError where
  | indexError
  | nameError
  deriving DecidableEq, Repr

/-- Association-list lookup, modelling Python `d[k]` / `k in d`
(`none` = key absent). -/
def alist_get {β : Type} (m : List (String × β)) (k : String) : Option β :=
  match m with
  | [] => none
  | (k', v) :: rest => if k' = k then some v else alist_get rest k

/-- Association-list update, modelling Python `d[k] = v`: an existing binding
for `k` is overwritten in place, otherwise the binding is appended. -/
def alist_put {β : Type} (m : List (String × β)) (k : String) (v : β) :
    List (String × β) :=
  match m with
  | [] => [(k, v)]
  | (k', v') :: rest =>
    if k' = k then (k, v) :: rest else (k', v') :: alist_put rest k v

/-- The module-level DICTIONARIES table: dictionary name to optional token
cap (`none` models Python `None`, "include all words"). -/
def DICTIONARIES : List (String × Option Nat) :=
  [("us_tv_and_film", some 30000),
   ("english_wikipedia", some 30000),
   ("passwords", some 30000),
   ("surnames", some 10000),
   ("male_names", none),
   ("female_names", none)]

/-- Python `str.lower()`, restricted to the character-wise case mapping. -/
def py_lower (s : String) : String :=
  ⟨s.data.map Char.toLower⟩

/-- Accumulator pass behind `py_split`: the first argument is the remaining
input, the second the (reversed) characters of the word being read. -/
def py_split_aux : List Char → List Char → List String
  | [], [] => []
  | [], w => [⟨w.reverse⟩]
  | c :: cs, w =>
    if c.isWhitespace then
      match w with
      | [] => py_split_aux cs []
      | _ => ⟨w.reverse⟩ :: py_split_aux cs []
    else py_split_aux cs (c :: w)

/-- Python `str.split()` with no separator argument: split on runs of
whitespace, never producing empty fields. -/
def py_split (s : String) : List String :=
  py_split_aux s.data []

/-- `str.rfind(c)` on a character list: index of the last occurrence of `c`,
or `-1` when absent. -/
def rfind_idx (cs : List Char) (c : Char) : Int :=
  match cs with
  | [] => -1
  | x :: xs =>
    let r := rfind_idx xs c
    if 0 ≤ r then r + 1 else if x = c then 0 else -1

/-- `os.path.splitext` (posix): split off the extension at the last dot that
follows the last path separator, unless the basename consists of leading dots
only up to that dot. -/
def splitext (p : String) : String × String :=
  let cs := p.data
  let sepIndex := rfind_idx cs '/'
  let dotIndex := rfind_idx cs '.'
  if sepIndex < dotIndex then
    let start := (sepIndex + 1).toNat
    let stop := dotIndex.toNat
    if ((cs.drop start).take (stop - start)).all (fun d => d == '.') then
      (p, "")
    else
      (⟨cs.take stop⟩, ⟨cs.drop stop⟩)
  else (p, "")

/-- The inner loop of `parse_frequency_lists` over one opened file:
`token = line.split()[0]` (IndexError on a field-free line) and
`token_to_rank[token] = rank` with `rank = i + 1`.  A duplicate token simply
overwrites the earlier binding's rank. -/
def parse_file_aux :
    List String → Nat → List (String × Nat) →
    Except PyError (List (String × Nat))
  | [], _, acc => .ok acc
  | line :: rest, rank, acc =>
    match py_split line with
    | [] => .error .indexError
    | token :: _ => parse_file_aux rest (rank + 1) (alist_put acc token rank)

/-- First loop of `parse_frequency_lists`: for each directory entry
(filename, file lines in order), skip stems not in DICTIONARIES (with a
printed warning), otherwise load the file into `freq_lists[stem]`. -/
def parse_loop1 :
    List (String × List String) → List (String × List (String × Nat)) →
    Except PyError (List (String × List (String × Nat)))
  | [], acc => .ok acc
  | (filename, lines) :: rest, acc =>
    let stem := (splitext filename).1
    match alist_get DICTIONARIES stem with
    | none => parse_loop1 rest acc
    | some _ =>
      match parse_file_aux lines 1 [] with
      | .error e => .error e
      | .ok token_to_rank => parse_loop1 rest (alist_put acc stem token_to_rank)

/-- Second loop of `parse_frequency_lists`: warn about configured names with
no matching file.  The warning line reads the undefined variable `freq_list`
(the loop variable is `freq_list_name`), so reaching it raises NameError. -/
def parse_loop2 (freq_lists : List (String × List (String × Nat))) :
    List String → Except PyError Unit
  | [] => .ok ()
  | name :: rest =>
    match alist_get freq_lists name with
    | none => .error .nameError
    | some _ => parse_loop2 freq_lists rest

/-- `parse_frequency_lists(data_dir)`, with the directory materialized as an
ordered list of (filename, lines-of-the-file). -/
def parse_frequency_lists (files : List (String × List String)) :
    Except PyError (List (String × List (String × Nat))) :=
  match parse_loop1 files [] with
  | .error e => .error e
  | .ok freq_lists =>
    match parse_loop2 freq_lists (DICTIONARIES.map Prod.fst) with
    | .error e => .error e
    | .ok _ => .ok freq_lists

/-- `is_rare_and_short(token, rank)`: `rank >= 10**len(token)`. -/
def is_rare_and_short (token : String) (rank : Nat) : Bool :=
  decide (10 ^ token.length ≤ rank)

/-- `has_comma_or_double_quote(token, rank, lst_name)`: the rank and list
name parameters are accepted and ignored, as in the source. -/
def has_comma_or_double_quote (token : String) (rank : Nat)
    (lst_name : String) : Bool :=
  let _ := rank
  let _ := lst_name
  token.data.contains ',' || token.data.contains '"'

/-- The nested `for name, token_to_rank ... for token, rank ...` iteration of
`filter_frequency_lists`, flattened to (name, token, rank) triples in
iteration order. -/
def triples :
    List (String × List (String × Nat)) → List (String × String × Nat)
  | [] => []
  | (name, lst) :: rest =>
    lst.map (fun tr => (name, tr.1, tr.2)) ++ triples rest

/-- First loop of `filter_frequency_lists`: fold one (name, token, rank)
triple into the combined `minimum_rank`/`minimum_name` map (the two Python
dicts always share their key set, so they are combined into one map from
token to (minimum rank, owning name)).  Failure is the assertion
`minimum_name[token] != name` ("same token occurs multiple times"); a
strictly smaller rank takes ownership, an equal rank does not. -/
def min_fold :
    List (String × String × Nat) → List (String × Nat × String) →
    Option (List (String × Nat × String))
  | [], m => some m
  | (name, token, rank) :: rest, m =>
    match alist_get m token with
    | none => min_fold rest (alist_put m token (rank, name))
    | some (min_rank, min_name) =>
      if min_name = name then none
      else if rank < min_rank then min_fold rest (alist_put m token (rank, name))
      else min_fold rest m

/-- The completed `minimum_rank`/`minimum_name` computation of
`filter_frequency_lists`. -/
def compute_min (freq_lists : List (String × List (String × Nat))) :
    Option (List (String × Nat × String)) :=
  min_fold (triples freq_lists) []

/-- Second loop of `filter_frequency_lists`, for one name: keep (token, rank)
pairs the name owns (`minimum_name[token] != name` skips) that pass both
exclusion predicates, in iteration order.  A failed `minimum_name[token]`
lookup would be a KeyError, hence the Option (it cannot occur for a map
produced by `compute_min` over the same lists). -/
def pass2 (m : List (String × Nat × String)) (name : String) :
    List (String × Nat) → Option (List (String × Nat))
  | [] => some []
  | (token, rank) :: rest =>
    match alist_get m token with
    | none => none
    | some (_, min_name) =>
      match pass2 m name rest with
      | none => none
      | some tail =>
        if min_name ≠ name then some tail
        else if is_rare_and_short token rank ||
            has_comma_or_double_quote token rank name then some tail
        else some ((token, rank) :: tail)

/-- The stable ascending comparison `key=itemgetter(1)` used by
`token_rank_pairs.sort`. -/
def rankLE (a b : String × Nat) : Prop := a.2 ≤ b.2

instance : DecidableRel rankLE := fun a b => Nat.decLe a.2 b.2

instance : IsTotal (String × Nat) rankLE := ⟨fun a b => Nat.le_total a.2 b.2⟩

instance : IsTrans (String × Nat) rankLE :=
  ⟨fun _ _ _ hab hbc => Nat.le_trans hab hbc⟩

/-- Third loop of `filter_frequency_lists`, for one name: stable sort by rank
(Python `list.sort` is a stable sort, modelled by insertion sort), truncate
when `cutoff_limit and len(token_rank_pairs) > cutoff_limit` is truthy
(`None` and `0` are falsy), and discard ranks.  `DICTIONARIES[name]` is a
KeyError when the name is not configured, hence the Option. -/
def pass3 (name : String) (pairs : List (String × Nat)) :
    Option (List String) :=
  let sorted := List.insertionSort rankLE pairs
  match alist_get DICTIONARIES name with
  | none => none
  | some cutoff_limit =>
    let final :=
      match cutoff_limit with
      | some c => if c ≠ 0 ∧ c < sorted.length then sorted.take c else sorted
      | none => sorted
    some (final.map Prod.fst)

/-- One entry of the result map of `filter_frequency_lists`. -/
def filter_entry (m : List (String × Nat × String))
    (p : String × List (String × Nat)) : Option (String × List String) :=
  match pass2 m p.1 p.2 with
  | none => none
  | some pairs =>
    match pass3 p.1 pairs with
    | none => none
    | some lst => some (p.1, lst)

/-- The per-name result construction of `filter_frequency_lists`, in the
iteration order of `freq_lists`. -/
def filter_map (m : List (String × Nat × String)) :
    List (String × List (String × Nat)) → Option (List (String × List String))
  | [] => some []
  | p :: rest =>
    match filter_entry m p, filter_map m rest with
    | some q, some qs => some (q :: qs)
    | _, _ => none

/-- `filter_frequency_lists(freq_lists)`: ownership resolution followed by
per-name filtering, sorting, and truncation.  `none` models an uncaught
AssertionError or KeyError. -/
def filter_frequency_lists (freq_lists : List (String × List (String × Nat))) :
    Option (List (String × List String)) :=
  match compute_min freq_lists with
  | none => none
  | some m => filter_map m freq_lists

/-- The packed word table emitted by `output_cpp` for one dictionary, at the
level of the bytes denoted by the C string literal: per word, one length
byte (`"\\%03o" % len(word)`, guarded by `assert len(word) <= 255`) followed
by the word's bytes.  `none` models the AssertionError for an overlong
word. -/
def output_cpp_encode : List (List Nat) → Option (List Nat)
  | [] => some []
  | w :: rest =>
    if w.length ≤ 255 then
      match output_cpp_encode rest with
      | some t => some ((w.length :: w) ++ t)
      | none => none
    else none

/-- The `WordIterator`/`WordIterable` sequence abstraction over a packed word
table: positioned at a byte offset, read the length byte there, yield the
following `length` bytes, advance by `1 + length`, and stop at the end
position, the offset equal to the table's total byte length.  (The C loop
compares offsets with `!=`; an offset beyond the length, which cannot arise
from a well-formed table, decodes to nothing here.) -/
def packed_decode (table : List Nat) (offset : Nat) : List (List Nat) :=
  if h : offset < table.length then
    let len := (table.drop offset).headD 0
    (table.drop (offset + 1)).take len :: packed_decode table (offset + 1 + len)
  else []
termination_by table.length - offset
decreasing_by omega

/-- `to_kv(lst, lst_name)`: one module-format mapping entry,
`'%s: %s' % (lst_name, '"%s".split(",")' % ','.join(lst))`. -/
def to_kv (lst : List String) (lst_name : String) : String :=
  lst_name ++ ": " ++ ("\"" ++ String.intercalate "," lst ++ "\".split(\",\")")

/-- The mapping-entry lines written by `output_coffee`, one per dictionary in
iteration order. -/
def output_coffee_lines (freq_lists : List (String × List String)) :
    List String :=
  freq_lists.map (fun p => to_kv p.2 p.1)

/-- The full file content written by `output_coffee`. -/
def output_coffee_content (script_name : String)
    (freq_lists : List (String × List String)) : String :=
  "# generated by " ++ script_name ++ "\n" ++ "frequency_lists = \n  " ++
    String.intercalate "\n  " (output_coffee_lines freq_lists) ++ "\n" ++
    "module.exports = frequency_lists\n"

/-- The three writers `main` can dispatch to. -/
inductive OutputFn where
  | cpp
  | hpp
  | coffee
  deriving DecidableEq, Repr

/-- The writer selection in `main`:
`_, ext = os.path.splitext(output_file.lower())` followed by the
`.cpp` / `.hpp` / fallback chain. -/
def select_output_fn (output_file : String) : OutputFn :=
  let ext := (splitext (py_lower output_file)).2
  if ext = ".cpp" then .cpp
  else if ext = ".hpp" then .hpp
  else .coffee

/-- The observable behaviour of `main` on its argument vector. -/
inductive MainAction where
  | printUsageAndExit (exit_code : Nat)
  | process (data_dir output_file : String)
  deriving DecidableEq, Repr

/-- The entry check of `main`: `if len(sys.argv) != 3: print usage();
sys.exit(0)`, before any loading, filtering, or writing; otherwise the two
positional arguments are unpacked and processing proceeds. -/
def main_action : List String → MainAction
  | [_, data_dir, output_file] => .process data_dir output_file
  | _ => .printUsageAndExit 0

/-- Specification-side view of one `min_fold` update, restricted to a single
token: first occurrence sets (rank, name), a strictly smaller rank replaces,
anything else (equal ranks included) is kept. -/
def occ_step (o : Option (Nat × String)) (name : String) (rank : Nat) :
    Option (Nat × String) :=
  match o with
  | none => some (rank, name)
  | some (r0, n0) => if rank < r0 then some (rank, name) else some (r0, n0)

/-- The running value of `minimum_rank[t]`/`minimum_name[t]` along a triple
list, as a scalar fold. -/
def scalar_fold (t : String) (o : Option (Nat × String)) :
    List (String × String × Nat) → Option (Nat × String)
  | [] => o
  | x :: rest =>
    scalar_fold t (if x.2.1 = t then occ_step o x.1 x.2.2 else o) rest

/-- The (name, rank) occurrences of token `t` across the loaded frequency
lists, in iteration order. -/
def occurrences_of (t : String)
    (freq_lists : List (String × List (String × Nat))) : List (String × Nat) :=
  (triples freq_lists).filterMap
    (fun x => if x.2.1 = t then some (x.1, x.2.2) else none)

/-- `scalar_fold` with the token filter already applied. -/
def fold_occ (o : Option (Nat × String)) :
    List (String × Nat) → Option (Nat × String)
  | [] => o
  | p :: rest => fold_occ (occ_step o p.1 p.2) rest

/-- Keep the smaller rank; on an equal rank keep the left (earlier) entry. -/
def combine_min (a : Nat × String) : Option (Nat × String) → Nat × String
  | none => a
  | some b => if b.1 < a.1 then b else a

/-- The earliest minimum-rank entry of an occurrence list: the minimum rank
paired with the first name attaining it. -/
def first_min : List (String × Nat) → Option (Nat × String)
  | [] => none
  | p :: rest => some (combine_min (p.2, p.1) (first_min rest))

/-! ## Helper lemmas about the association-list operations -/

theorem alist_get_put {β : Type} (m : List (String × β)) (k t : String)
    (v : β) :
    alist_get (alist_put m k v) t = if k = t then some v else alist_get m t := by
  induction m with
  | nil => simp [alist_get, alist_put]
  | cons p rest ih =>
    obtain ⟨k', v'⟩ := p
    by_cases hk : k' = k
    · subst hk
      simp only [alist_put, if_pos rfl, alist_get]
      split_ifs <;> rfl
    · simp only [alist_put, if_neg hk, alist_get]
      by_cases ht : k' = t
      · subst ht
        have : ¬ k = k' := fun h => hk h.symm
        simp [alist_get, this]
      · simp [alist_get, ht, ih]

/-! ## Characterization of the ownership fold -/

theorem min_fold_get (ts : List (String × String × Nat)) :
    ∀ m m', min_fold ts m = some m' →
      ∀ t, alist_get m' t = scalar_fold t (alist_get m t) ts := by
  induction ts with
  | nil =>
    intro m m' h t
    simp only [min_fold, Option.some.injEq] at h
    subst h
    rfl
  | cons x rest ih =>
    intro m m' h t
    obtain ⟨name, token, rank⟩ := x
    simp only [scalar_fold]
    rcases hg : alist_get m token with _ | ⟨r0, n0⟩
    · simp only [min_fold, hg] at h
      have := ih _ _ h t
      rw [this]
      congr 1
      rw [alist_get_put]
      by_cases htt : token = t
      · subst htt
        simp [hg, occ_step]
      · simp [htt]
    · simp only [min_fold, hg] at h
      by_cases hn : n0 = name
      · simp [hn] at h
      · rw [if_neg hn] at h
        by_cases hr : rank < r0
        · rw [if_pos hr] at h
          have := ih _ _ h t
          rw [this]
          congr 1
          rw [alist_get_put]
          by_cases htt : token = t
          · subst htt
            simp [hg, occ_step, hr]
          · simp [htt]
        · rw [if_neg hr] at h
          have := ih _ _ h t
          rw [this]
          congr 1
          by_cases htt : token = t
          · subst htt
            simp [hg, occ_step, hr]
          · simp [htt]

theorem scalar_fold_eq_fold_occ (t : String)
    (ts : List (String × String × Nat)) :
    ∀ o, scalar_fold t o ts =
      fold_occ o (ts.filterMap
        (fun x => if x.2.1 = t then some (x.1, x.2.2) else none)) := by
  induction ts with
  | nil => intro o; rfl
  | cons x rest ih =>
    intro o
    simp only [scalar_fold, List.filterMap_cons]
    by_cases hx : x.2.1 = t
    · simp only [if_pos hx, fold_occ]
      exact ih _
    · simp only [if_neg hx]
      exact ih _

theorem fold_occ_some (l : List (String × Nat)) :
    ∀ a, fold_occ (some a) l = some (combine_min a (first_min l)) := by
  induction l with
  | nil => intro a; rfl
  | cons p rest ih =>
    intro a
    have hstep : occ_step (some a) p.1 p.2 = some (combine_min a (some (p.2, p.1))) := by
      simp only [occ_step, combine_min]
      split_ifs <;> rfl
    simp only [fold_occ, hstep, ih, first_min]
    congr 1
    rcases hr : first_min rest with _ | b
    · simp only [combine_min]
    · simp only [combine_min]
      split_ifs <;> first | rfl | omega

theorem fold_occ_none (l : List (String × Nat)) :
    fold_occ none l = first_min l := by
  cases l with
  | nil => rfl
  | cons p rest =>
    have hstep : occ_step (none : Option (Nat × String)) p.1 p.2 = some (p.2, p.1) := rfl
    simp only [fold_occ, hstep, fold_occ_some, first_min]

theorem compute_min_get (freq_lists : List (String × List (String × Nat)))
    (m : List (String × Nat × String)) (h : compute_min freq_lists = some m)
    (t : String) :
    alist_get m t = first_min (occurrences_of t freq_lists) := by
  have h1 := min_fold_get (triples freq_lists) [] m h t
  have h0 : alist_get ([] : List (String × Nat × String)) t = none := rfl
  rw [h0] at h1
  rw [h1, scalar_fold_eq_fold_occ, fold_occ_none]
  rfl

theorem first_min_eq_none (l : List (String × Nat)) :
    first_min l = none ↔ l = [] := by
  cases l <;> simp [first_min]

theorem first_min_le (l : List (String × Nat)) :
    ∀ a, first_min l = some a → ∀ p ∈ l, a.1 ≤ p.2 := by
  induction l with
  | nil => intro a h p hp; simp at hp
  | cons q rest ih =>
    intro a h p hp
    simp only [first_min, Option.some.injEq] at h
    rcases hr : first_min rest with _ | b
    · rw [hr] at h
      simp only [combine_min] at h
      rw [first_min_eq_none] at hr
      subst hr
      simp only [List.mem_singleton] at hp
      subst hp
      subst h
      exact Nat.le_refl _
    · rw [hr] at h
      simp only [combine_min] at h
      rcases List.mem_cons.mp hp with hq | hrest

      · subst hq
        by_cases hb : b.1 < p.2
        · rw [if_pos hb] at h
          subst h
          exact Nat.le_of_lt hb
        · rw [if_neg hb] at h
          subst h
          exact Nat.le_refl _
      · have hble := ih b hr p hrest
        by_cases hb : b.1 < q.2
        · rw [if_pos hb] at h
          subst h
          exact hble
        · rw [if_neg hb] at h
          subst h
          exact Nat.le_trans (Nat.le_of_not_lt hb) hble

theorem first_min_split (l : List (String × Nat)) :
    ∀ a, first_min l = some a →
      ∃ l1 l2, l = l1 ++ (a.2, a.1) :: l2 ∧ ∀ p ∈ l1, a.1 < p.2 := by
  induction l with
  | nil => intro a h; simp [first_min] at h
  | cons q rest ih =>
    intro a h
    simp only [first_min, Option.some.injEq] at h
    rcases hr : first_min rest with _ | b
    · rw [hr] at h
      simp only [combine_min] at h
      subst h
      exact ⟨[], rest, by simp, by simp⟩
    · rw [hr] at h
      simp only [combine_min] at h
      by_cases hb : b.1 < q.2
      · rw [if_pos hb] at h
        subst h
        obtain ⟨l1, l2, hsplit, hgt⟩ := ih b hr
        refine ⟨q :: l1, l2, by rw [hsplit]; rfl, ?_⟩
        intro p hp
        rcases List.mem_cons.mp hp with hq | hl1
        · subst hq; exact hb
        · exact hgt p hl1
      · rw [if_neg hb] at h
        subst h
        exact ⟨[], rest, by simp, by simp⟩

/-! ## Inversion lemmas for the filtering passes -/

theorem pass2_mem (m : List (String × Nat × String)) (name : String)
    (l : List (String × Nat)) :
    ∀ pairs, pass2 m name l = some pairs →
      ∀ t r, (t, r) ∈ pairs →
        (t, r) ∈ l ∧ (∃ mr, alist_get m t = some (mr, name)) ∧
        is_rare_and_short t r = false ∧
        has_comma_or_double_quote t r name = false := by
  induction l with
  | nil =>
    intro pairs h t r htr
    simp only [pass2, Option.some.injEq] at h
    subst h
    simp at htr
  | cons q rest ih =>
    intro pairs h t r htr
    obtain ⟨token, rank⟩ := q
    rcases hg : alist_get m token with _ | ⟨mr0, mn⟩
    · simp only [pass2, hg] at h
      exact Option.noConfusion h
    · simp only [pass2, hg] at h
      rcases hp : pass2 m name rest with _ | tail

      · simp only [hp] at h
        exact Option.noConfusion h
      · simp only [hp] at h
        by_cases hmn : mn ≠ name
        · rw [if_pos hmn] at h
          simp only [Option.some.injEq] at h
          subst h
          obtain ⟨h1, h2, h3⟩ := ih tail hp t r htr
          exact ⟨List.mem_cons_of_mem _ h1, h2, h3⟩
        · rw [if_neg hmn] at h
          push_neg at hmn
          by_cases hex : is_rare_and_short token rank ||
              has_comma_or_double_quote token rank name
          · rw [if_pos hex] at h
            simp only [Option.some.injEq] at h
            subst h
            obtain ⟨h1, h2, h3⟩ := ih tail hp t r htr
            exact ⟨List.mem_cons_of_mem _ h1, h2, h3⟩
          · rw [if_neg hex] at h
            simp only [Option.some.injEq] at h
            subst h
            rcases List.mem_cons.mp htr with hhead | htail
            · injection hhead with ht hr
              subst ht
              subst hr
              have hor := Bool.or_eq_false_iff.mp (Bool.eq_false_iff.mpr hex)
              exact ⟨List.mem_cons_self _ _, ⟨mr0, hmn ▸ hg⟩, hor.1, hor.2⟩
            · obtain ⟨h1, h2, h3⟩ := ih tail hp t r htail
              exact ⟨List.mem_cons_of_mem _ h1, h2, h3⟩

/-- Every cap actually configured in DICTIONARIES is positive, so the falsy
`cutoff_limit == 0` branch of the truncation test never suppresses a
configured cap. -/
theorem dictionaries_cap_pos (name : String) (c : Nat)
    (h : alist_get DICTIONARIES name = some (some c)) : 0 < c := by
  simp only [DICTIONARIES, alist_get] at h
  split_ifs at h <;> simp_all <;> omega

/-- `pass3` computes exactly "survivors sorted ascending by rank, then
truncated to the configured cap": the output is the token projection of a
kept list `rpairs`, where `rpairs` followed by the dropped remainder
`dropped` is a permutation of the survivors, `rpairs` is sorted by rank,
every kept rank is at most every dropped rank (truncation removes a
maximal-rank suffix of the sorted list, keeping the minimal-rank prefix),
nothing is dropped when no cap is configured or when the survivor count is
within the cap, and exactly `cap` entries are kept when truncation
applies. -/
theorem pass3_shape (name : String) (pairs : List (String × Nat))
    (lst : List String) (h : pass3 name pairs = some lst) :
    ∃ rpairs dropped : List (String × Nat),
      lst = rpairs.map Prod.fst ∧ List.Pairwise rankLE rpairs ∧
      List.Perm (rpairs ++ dropped) pairs ∧
      (∀ a ∈ rpairs, ∀ b ∈ dropped, a.2 ≤ b.2) ∧
      (alist_get DICTIONARIES name = some none → dropped = []) ∧
      (∀ c, alist_get DICTIONARIES name = some (some c) →
        lst.length ≤ c ∧ (pairs.length ≤ c → dropped = []) ∧
        (c < pairs.length → lst.length = c)) := by
  have hsorted : List.Pairwise rankLE (List.insertionSort rankLE pairs) :=
    List.sorted_insertionSort rankLE pairs
  have hperm : List.Perm (List.insertionSort rankLE pairs) pairs :=
    List.perm_insertionSort rankLE pairs
  have hlen : (List.insertionSort rankLE pairs).length = pairs.length :=
    hperm.length_eq
  rcases hd : alist_get DICTIONARIES name with _ | cutoff
  · simp only [pass3, hd] at h
    exact Option.noConfusion h
  · rcases cutoff with _ | c
    · simp only [pass3, hd, Option.some.injEq] at h
      subst h
      refine ⟨List.insertionSort rankLE pairs, [], rfl, hsorted, ?_, ?_, ?_, ?_⟩
      · rw [List.append_nil]
        exact hperm
      · intro a _ b hb
        simp at hb
      · intro _
        rfl
      · intro c hc
        exact Option.noConfusion (Option.some.inj hc)
    · simp only [pass3, hd, Option.some.injEq] at h
      by_cases hcut : c ≠ 0 ∧ c < (List.insertionSort rankLE pairs).length
      · rw [if_pos hcut] at h
        subst h
        refine ⟨(List.insertionSort rankLE pairs).take c,
          (List.insertionSort rankLE pairs).drop c, rfl, ?_, ?_, ?_, ?_, ?_⟩
        · exact List.Pairwise.sublist (List.take_sublist c _) hsorted
        · rw [List.take_append_drop]
          exact hperm
        · have hsorted2 : List.Pairwise rankLE
              ((List.insertionSort rankLE pairs).take c ++
                (List.insertionSort rankLE pairs).drop c) := by
            rw [List.take_append_drop]
            exact hsorted
          exact (List.pairwise_append.mp hsorted2).2.2
        · intro hc'
          exact Option.noConfusion (Option.some.inj hc')
        · intro c' hc'
          have hcc : c = c' :=
            Option.some.inj (Option.some.inj hc')
          subst hcc
          obtain ⟨hc0, hclt⟩ := hcut
          refine ⟨?_, ?_, ?_⟩
          · rw [List.length_map, List.length_take]
            exact Nat.min_le_left _ _
          · intro hle
            omega
          · intro _
            rw [List.length_map, List.length_take]
            omega
      · rw [if_neg hcut] at h
        subst h
        refine ⟨List.insertionSort rankLE pairs, [], rfl, hsorted, ?_, ?_, ?_, ?_⟩
        · rw [List.append_nil]
          exact hperm
        · intro a _ b hb
          simp at hb
        · intro hc'
          exact Option.noConfusion (Option.some.inj hc')
        · intro c' hc'
          have hcc : c = c' :=
            Option.some.inj (Option.some.inj hc')
          subst hcc
          have hpos : 0 < c := dictionaries_cap_pos name c hd
          push_neg at hcut
          have hle := hcut (by omega)
          refine ⟨?_, ?_, ?_⟩
          · rw [List.length_map]
            exact hle
          · intro _
            rfl
          · intro hlt
            rw [List.length_map]
            omega

theorem filter_map_mem (m : List (String × Nat × String)) :
    ∀ (fl : List (String × List (String × Nat)))
      (out : List (String × List String)),
      filter_map m fl = some out →
      ∀ q ∈ out, ∃ p ∈ fl, filter_entry m p = some q := by
  intro fl
  induction fl with
  | nil =>
    intro out h q hq
    simp only [filter_map, Option.some.injEq] at h
    subst h
    simp at hq
  | cons p rest ih =>
    intro out h q hq
    rcases he : filter_entry m p with _ | q0
    · simp only [filter_map, he] at h
      exact Option.noConfusion h
    · rcases hr : filter_map m rest with _ | qs
      · simp only [filter_map, he, hr] at h
        exact Option.noConfusion h
      · simp only [filter_map, he, hr, Option.some.injEq] at h
        subst h
        rcases List.mem_cons.mp hq with hq0 | hqs
        · subst hq0
          exact ⟨p, List.mem_cons_self _ _, he⟩
        · obtain ⟨p', hp', he'⟩ := ih qs hr q hqs
          exact ⟨p', List.mem_cons_of_mem _ hp', he'⟩

theorem filter_entry_inv (m : List (String × Nat × String))
    (p : String × List (String × Nat)) (q : String × List String)
    (h : filter_entry m p = some q) :
    ∃ pairs, pass2 m p.1 p.2 = some pairs ∧ pass3 p.1 pairs = some q.2 ∧
      q.1 = p.1 := by
  rcases h2 : pass2 m p.1 p.2 with _ | pairs
  · simp only [filter_entry, h2] at h
    exact Option.noConfusion h
  · rcases h3 : pass3 p.1 pairs with _ | lst
    · simp only [filter_entry, h2, h3] at h
      exact Option.noConfusion h
    · simp only [filter_entry, h2, h3, Option.some.injEq] at h
      subst h
      exact ⟨pairs, rfl, h3, rfl⟩

/-- Bridge: a token in a filtered output list comes from a surviving
(token, rank) pair of the same name's pass-2 output. -/
theorem mem_output_token (fl : List (String × List (String × Nat)))
    (out : List (String × List String)) (n : String) (lst : List String)
    (t : String) (hf : filter_frequency_lists fl = some out)
    (hn : (n, lst) ∈ out) (ht : t ∈ lst) :
    ∃ m lstIn pairs r,
      compute_min fl = some m ∧ (n, lstIn) ∈ fl ∧
      pass2 m n lstIn = some pairs ∧ (t, r) ∈ pairs := by
  rcases hm : compute_min fl with _ | m
  · simp only [filter_frequency_lists, hm] at hf
    exact Option.noConfusion hf
  · simp only [filter_frequency_lists, hm] at hf
    obtain ⟨p, hp, he⟩ := filter_map_mem m fl out hf (n, lst) hn
    obtain ⟨pairs, h2, h3, hq1⟩ := filter_entry_inv m p (n, lst) he
    obtain ⟨rpairs, dropped, hmap, _, hperm, _, _, _⟩ :=
      pass3_shape p.1 pairs lst h3
    rw [hmap] at ht
    obtain ⟨tr, htr, hfst⟩ := List.mem_map.mp ht
    have hpairs : (t, tr.2) ∈ pairs := by
      have : tr = (t, tr.2) := by
        rw [← hfst]
      rw [← this]
      exact hperm.subset (List.mem_append_left dropped htr)
    simp only at hq1
    have hplst : (n, p.2) ∈ fl := by
      rw [hq1]
      exact hp
    rw [← hq1] at h2
    exact ⟨m, p.2, pairs, tr.2, rfl, hplst, h2, hpairs⟩

/-! ## Claim theorems -/

/-- C1 (amended): a token appearing in a filtered output dictionary appears
in exactly that one dictionary (ownership is unique), and the owner is the
list holding the token's numerically smallest rank, where on an equal
minimum rank the earlier-seen list keeps ownership (every occurrence
strictly before the winning one has a strictly larger rank, and no
occurrence anywhere has a smaller one).  A token present in two or more
lists can, however, appear in zero filtered dictionaries when its owning
occurrence is dropped by the rare-and-short or unsafe-character predicate or
by cap truncation, so "exactly one" weakens to "at most one". -/
theorem filter_output_member_is_unique_owner
    (fl : List (String × List (String × Nat)))
    (out : List (String × List String)) (n t : String) (lst : List String)
    (hf : filter_frequency_lists fl = some out)
    (hn : (n, lst) ∈ out) (ht : t ∈ lst) :
    (∀ n' lst', (n', lst') ∈ out → t ∈ lst' → n' = n) ∧
    ∃ r l1 l2, occurrences_of t fl = l1 ++ (n, r) :: l2 ∧
      (∀ p ∈ l1, r < p.2) ∧ ∀ p ∈ occurrences_of t fl, r ≤ p.2 := by
  obtain ⟨m, lstIn, pairs, r0, hm, hmem, hp2, hpr⟩ :=
    mem_output_token fl out n lst t hf hn ht
  obtain ⟨_, ⟨mr, hget⟩, _, _⟩ := pass2_mem m n lstIn pairs hp2 t r0 hpr
  constructor
  · intro n' lst' hn' ht'
    obtain ⟨m', lstIn', pairs', r0', hm', hmem', hp2', hpr'⟩ :=
      mem_output_token fl out n' lst' t hf hn' ht'
    obtain ⟨_, ⟨mr', hget'⟩, _, _⟩ :=
      pass2_mem m' n' lstIn' pairs' hp2' t r0' hpr'
    rw [hm] at hm'
    have hmm : m = m' := Option.some.inj hm'
    subst hmm
    rw [hget] at hget'
    exact (Prod.mk.inj (Option.some.inj hget')).2.symm
  · have hfm := compute_min_get fl m hm t
    rw [hget] at hfm
    obtain ⟨l1, l2, hsplit, hgt⟩ := first_min_split _ _ hfm.symm
    refine ⟨mr, l1, l2, ?_, hgt, ?_⟩
    · simpa using hsplit
    · intro p hp
      exact first_min_le _ _ hfm.symm p hp

/-- Witness for C1's amended theorem at a concrete run. -/
theorem filter_output_member_is_unique_owner_witness :
    filter_frequency_lists [("passwords", [("hello", 1)])] =
        some [("passwords", ["hello"])] ∧
    (("passwords", ["hello"]) ∈ [(("passwords" : String), ["hello"])] ∧
      "hello" ∈ ["hello"]) ∧
    ((∀ n' lst', (n', lst') ∈ [(("passwords" : String), ["hello"])] →
        "hello" ∈ lst' → n' = "passwords") ∧
      ∃ r l1 l2,
        occurrences_of "hello" [("passwords", [("hello", 1)])] =
          l1 ++ ("passwords", r) :: l2 ∧
        (∀ p ∈ l1, r < p.2) ∧
        ∀ p ∈ occurrences_of "hello" [("passwords", [("hello", 1)])],
          r ≤ p.2) :=
  ⟨by decide, ⟨by decide, by decide⟩,
    filter_output_member_is_unique_owner [("passwords", [("hello", 1)])]
      [("passwords", ["hello"])] "passwords" "hello" ["hello"] (by decide)
      (by decide) (by decide)⟩

/-- C1, as frozen, is refuted on this input: "ab" occurs in two loaded lists
(ranks 100 and 200), the run succeeds, yet "ab" appears in zero filtered
dictionaries — its owning occurrence (rank 100 in "passwords") satisfies
rank ≥ 10^len("ab") and is dropped by is_rare_and_short, not "exactly one"
dictionary. -/
theorem filter_exactly_one_owner_counterexample :
    (("ab", 100) ∈ [(("ab" : String), 100)] ∧
      ("ab", 200) ∈ [(("ab" : String), 200)]) ∧
    filter_frequency_lists
        [("passwords", [("ab", 100)]), ("surnames", [("ab", 200)])] =
      some [("passwords", []), ("surnames", [])] ∧
    ∀ p ∈ [(("passwords" : String), ([] : List String)),
        ("surnames", ([] : List String))], "ab" ∉ p.2 := by
  refine ⟨⟨by decide, by decide⟩, by decide, by decide⟩

/-- C6: each filtered output list equals its pass-2 survivor list sorted
ascending by winning rank and then truncated to the configured cap.
Concretely: the output is the token projection of a kept list `rpairs`, the
kept list followed by the dropped remainder `dropped` is a permutation of
the survivors, the kept list is sorted by rank, every kept rank is at most
every dropped rank (truncation keeps the minimal-rank prefix of the sorted
survivors), a cap-less dictionary drops nothing, a capped dictionary whose
survivor count is within the cap also drops nothing (all survivors are
kept), the output length never exceeds a configured cap, and when
truncation applies exactly `cap` entries are kept. -/
theorem filter_output_sorted_and_capped
    (fl : List (String × List (String × Nat)))
    (out : List (String × List String)) (n : String) (lst : List String)
    (hf : filter_frequency_lists fl = some out) (hn : (n, lst) ∈ out) :
    ∃ m lstIn pairs rpairs dropped,
      compute_min fl = some m ∧ (n, lstIn) ∈ fl ∧
      pass2 m n lstIn = some pairs ∧ lst = rpairs.map Prod.fst ∧
      List.Pairwise rankLE rpairs ∧
      List.Perm (rpairs ++ dropped) pairs ∧
      (∀ a ∈ rpairs, ∀ b ∈ dropped, a.2 ≤ b.2) ∧
      (alist_get DICTIONARIES n = some none → dropped = []) ∧
      (∀ c, alist_get DICTIONARIES n = some (some c) →
        lst.length ≤ c ∧ (pairs.length ≤ c → dropped = []) ∧
        (c < pairs.length → lst.length = c)) := by
  rcases hm : compute_min fl with _ | m
  · simp only [filter_frequency_lists, hm] at hf
    exact Option.noConfusion hf
  · simp only [filter_frequency_lists, hm] at hf
    obtain ⟨p, hp, he⟩ := filter_map_mem m fl out hf (n, lst) hn
    obtain ⟨pairs, h2, h3, hq1⟩ := filter_entry_inv m p (n, lst) he
    simp only at hq1
    obtain ⟨rpairs, dropped, hmap, hpw, hperm, hcross, hnocap, hcap⟩ :=
      pass3_shape p.1 pairs lst h3
    rw [← hq1] at hcap hnocap h2
    have hplst : (n, p.2) ∈ fl := by
      rw [hq1]
      exact hp
    exact ⟨m, p.2, pairs, rpairs, dropped, rfl, hplst, h2, hmap, hpw, hperm,
      hcross, hnocap, hcap⟩

/-- Witness for C6 at a concrete run: the "surnames" dictionary has a
configured cap (10000) and two survivors, loaded in reverse rank order, so
the witness exercises the sorting clause and the capped-but-within-limit
clause, under which the kept list is a permutation of all survivors and the
dropped remainder is forced empty.  (No configured cap is below 10000, so a
kernel-evaluated witness cannot reach the truncating branch; that branch is
established by the theorem itself.) -/
theorem filter_output_sorted_and_capped_witness :
    filter_frequency_lists [("surnames", [("smith", 2), ("jones", 1)])] =
        some [("surnames", ["jones", "smith"])] ∧
    ∃ m lstIn pairs rpairs dropped,
      compute_min [("surnames", [("smith", 2), ("jones", 1)])] = some m ∧
      ("surnames", lstIn) ∈
        [(("surnames" : String), [("smith", 2), ("jones", 1)])] ∧
      pass2 m "surnames" lstIn = some pairs ∧
      (["jones", "smith"] : List String) = rpairs.map Prod.fst ∧
      List.Pairwise rankLE rpairs ∧
      List.Perm (rpairs ++ dropped) pairs ∧
      (∀ a ∈ rpairs, ∀ b ∈ dropped, a.2 ≤ b.2) ∧
      (alist_get DICTIONARIES "surnames" = some none → dropped = []) ∧
      (∀ c, alist_get DICTIONARIES "surnames" = some (some c) →
        (["jones", "smith"] : List String).length ≤ c ∧
        (pairs.length ≤ c → dropped = []) ∧
        (c < pairs.length →
          (["jones", "smith"] : List String).length = c)) :=
  ⟨by decide,
    filter_output_sorted_and_capped
      [("surnames", [("smith", 2), ("jones", 1)])]
      [("surnames", ["jones", "smith"])] "surnames" ["jones", "smith"]
      (by decide) (by decide)⟩

/-- C7: every token in a filtered output dictionary has, in its owning
list, a rank strictly below 10^(token length). -/
theorem filter_output_rank_lt_pow_length
    (fl : List (String × List (String × Nat)))
    (out : List (String × List String)) (n t : String) (lst : List String)
    (hf : filter_frequency_lists fl = some out)
    (hn : (n, lst) ∈ out) (ht : t ∈ lst) :
    ∃ m mr lstIn r,
      compute_min fl = some m ∧ alist_get m t = some (mr, n) ∧
      (n, lstIn) ∈ fl ∧ (t, r) ∈ lstIn ∧ r < 10 ^ t.length := by
  obtain ⟨m, lstIn, pairs, r, hm, hmem, hp2, hpr⟩ :=
    mem_output_token fl out n lst t hf hn ht
  obtain ⟨hin, ⟨mr, hget⟩, hrare, _⟩ := pass2_mem m n lstIn pairs hp2 t r hpr
  refine ⟨m, mr, lstIn, r, hm, hget, hmem, hin, ?_⟩
  have : ¬ (10 ^ t.length ≤ r) := by
    simpa [is_rare_and_short] using hrare
  omega

/-- Witness for C7 at a concrete run. -/
theorem filter_output_rank_lt_pow_length_witness :
    filter_frequency_lists [("male_names", [("james", 40)])] =
        some [("male_names", ["james"])] ∧
    ∃ m mr lstIn r,
      compute_min [("male_names", [("james", 40)])] = some m ∧
      alist_get m "james" = some (mr, "male_names") ∧
      ("male_names", lstIn) ∈ [(("male_names" : String), [("james", 40)])] ∧
      ("james", r) ∈ lstIn ∧ r < 10 ^ ("james" : String).length :=
  ⟨by decide,
    filter_output_rank_lt_pow_length [("male_names", [("james", 40)])]
      [("male_names", ["james"])] "male_names" "james" ["james"] (by decide)
      (by decide) (by decide)⟩

/-- C8: no token of any filtered output dictionary contains a comma or a
double-quote character; in particular a source token such as "ps8,000" never
survives filtering. -/
theorem filter_output_no_comma_or_quote
    (fl : List (String × List (String × Nat)))
    (out : List (String × List String)) (n t : String) (lst : List String)
    (hf : filter_frequency_lists fl = some out)
    (hn : (n, lst) ∈ out) (ht : t ∈ lst) :
    t.data.contains ',' = false ∧ t.data.contains '"' = false := by
  obtain ⟨m, lstIn, pairs, r, hm, hmem, hp2, hpr⟩ :=
    mem_output_token fl out n lst t hf hn ht
  obtain ⟨_, _, _, hcq⟩ := pass2_mem m n lstIn pairs hp2 t r hpr
  simp only [has_comma_or_double_quote] at hcq
  exact Bool.or_eq_false_iff.mp hcq

/-- Witness for C8 at a concrete run in which the source also carries the
comma-bearing token "ps8,000", which is indeed absent from the output. -/
theorem filter_output_no_comma_or_quote_witness :
    filter_frequency_lists
        [("english_wikipedia", [("ps8,000", 4), ("anarchism", 1)])] =
      some [("english_wikipedia", ["anarchism"])] ∧
    (("anarchism" : String).data.contains ',' = false ∧
      ("anarchism" : String).data.contains '"' = false) :=
  ⟨by decide,
    filter_output_no_comma_or_quote
      [("english_wikipedia", [("ps8,000", 4), ("anarchism", 1)])]
      [("english_wikipedia", ["anarchism"])] "english_wikipedia" "anarchism"
      ["anarchism"] (by decide) (by decide) (by decide)⟩

/-! ## Packed-table codec lemmas -/

theorem packed_decode_pos (table : List Nat) (offset : Nat)
    (h : offset < table.length) :
    packed_decode table offset =
      (table.drop (offset + 1)).take ((table.drop offset).headD 0) ::
        packed_decode table (offset + 1 + (table.drop offset).headD 0) := by
  rw [packed_decode, dif_pos h]

theorem packed_decode_neg (table : List Nat) (offset : Nat)
    (h : ¬ offset < table.length) :
    packed_decode table offset = [] := by
  rw [packed_decode, dif_neg h]

theorem encode_ok_of_short :
    ∀ ws : List (List Nat), (∀ w ∈ ws, w.length ≤ 255) →
      ∃ t, output_cpp_encode ws = some t := by
  intro ws
  induction ws with
  | nil => intro _; exact ⟨[], rfl⟩
  | cons w rest ih =>
    intro hws
    have hw : w.length ≤ 255 := hws w (List.mem_cons_self _ _)
    obtain ⟨t', ht'⟩ := ih (fun x hx => hws x (List.mem_cons_of_mem _ hx))
    exact ⟨(w.length :: w) ++ t', by simp [output_cpp_encode, hw, ht']⟩

theorem encode_decode_aux :
    ∀ (ws : List (List Nat)) (t : List Nat), output_cpp_encode ws = some t →
      ∀ pre : List Nat, packed_decode (pre ++ t) pre.length = ws := by
  intro ws
  induction ws with
  | nil =>
    intro t h pre
    simp only [output_cpp_encode, Option.some.injEq] at h
    subst h
    rw [packed_decode_neg]
    simp
  | cons w rest ih =>
    intro t h pre
    simp only [output_cpp_encode] at h
    by_cases hw : w.length ≤ 255
    · rw [if_pos hw] at h
      rcases he : output_cpp_encode rest with _ | t'
      · simp only [he] at h
        exact Option.noConfusion h
      · simp only [he, Option.some.injEq] at h
        subst h
        have hlt : pre.length < (pre ++ ((w.length :: w) ++ t')).length := by
          simp [List.length_append]
        rw [packed_decode_pos _ _ hlt]
        have hdrop0 : (pre ++ ((w.length :: w) ++ t')).drop pre.length =
            (w.length :: w) ++ t' := List.drop_left pre _
        have hdrop1 : (pre ++ ((w.length :: w) ++ t')).drop (pre.length + 1) =
            w ++ t' := by
          have harr : pre ++ ((w.length :: w) ++ t') =
              (pre ++ [w.length]) ++ (w ++ t') := by
            simp
          have hlen : pre.length + 1 = (pre ++ [w.length]).length := by
            simp
          rw [harr, hlen, List.drop_left]
        have hhead : ((pre ++ ((w.length :: w) ++ t')).drop pre.length).headD 0 =
            w.length := by
          rw [hdrop0]
          rfl
        rw [hhead, hdrop1, List.take_left]
        have harr2 : pre ++ ((w.length :: w) ++ t') =
            (pre ++ (w.length :: w)) ++ t' := by
          simp
        have hlen2 : (pre ++ (w.length :: w)).length =
            pre.length + 1 + w.length := by
          simp
          omega
        rw [harr2, ← hlen2]
        exact List.cons_eq_cons.mpr ⟨rfl, ih t' he (pre ++ (w.length :: w))⟩
    · rw [if_neg hw] at h
      exact Option.noConfusion h

theorem encode_fails_of_long :
    ∀ ws : List (List Nat), (∃ w ∈ ws, 256 ≤ w.length) →
      output_cpp_encode ws = none := by
  intro ws
  induction ws with
  | nil => intro h; simp at h
  | cons w rest ih =>
    intro h
    obtain ⟨w0, hw0, hlen⟩ := h
    rcases List.mem_cons.mp hw0 with hhead | htail
    · subst hhead
      simp only [output_cpp_encode]
      rw [if_neg (by omega)]
    · have hrest : output_cpp_encode rest = none := ih ⟨w0, htail, hlen⟩
      simp only [output_cpp_encode]
      by_cases hw : w.length ≤ 255
      · rw [if_pos hw, hrest]
      · rw [if_neg hw]

/-- C2: encoding an ordered sequence of tokens of byte lengths 0-255 as the
packed word table and decoding it with the sequence abstraction, starting at
offset 0 and ending at the table's total byte length, recovers exactly the
original sequence in order; and any sequence containing a token of 256 or
more bytes makes the encoder fail fatally. -/
theorem packed_table_round_trip (ws : List (List Nat)) :
    ((∀ w ∈ ws, w.length ≤ 255) →
      ∃ t, output_cpp_encode ws = some t ∧ packed_decode t 0 = ws) ∧
    ((∃ w ∈ ws, 256 ≤ w.length) → output_cpp_encode ws = none) := by
  constructor
  · intro hws
    obtain ⟨t, ht⟩ := encode_ok_of_short ws hws
    refine ⟨t, ht, ?_⟩
    have hdec := encode_decode_aux ws t ht []
    simpa using hdec
  · exact encode_fails_of_long ws

/-- Witness for C2 at a concrete token sequence including an empty token. -/
theorem packed_table_round_trip_witness :
    (∀ w ∈ ([[104, 105], [], [33]] : List (List Nat)), w.length ≤ 255) ∧
    ∃ t, output_cpp_encode ([[104, 105], [], [33]] : List (List Nat)) = some t ∧
      packed_decode t 0 = ([[104, 105], [], [33]] : List (List Nat)) :=
  ⟨by decide,
    (packed_table_round_trip ([[104, 105], [], [33]] : List (List Nat))).1
      (by decide)⟩

/-! ## Loader and CLI claims -/

theorem parse_file_aux_error_kind :
    ∀ (lines : List String) (rank : Nat) (acc : List (String × Nat))
      (e : PyError), parse_file_aux lines rank acc = .error e →
      e = .indexError := by
  intro lines
  induction lines with
  | nil =>
    intro rank acc e h
    exact Except.noConfusion h
  | cons line rest ih =>
    intro rank acc e h
    rcases hs : py_split line with _ | ⟨token, fields⟩
    · simp only [parse_file_aux, hs] at h
      exact (Except.error.inj h).symm
    · simp only [parse_file_aux, hs] at h
      exact ih _ _ _ h

theorem parse_file_aux_blank :
    ∀ (lines : List String) (rank : Nat) (acc : List (String × Nat))
      (line : String), line ∈ lines → py_split line = [] →
      parse_file_aux lines rank acc = .error .indexError := by
  intro lines
  induction lines with
  | nil =>
    intro rank acc line hmem _
    simp at hmem
  | cons l rest ih =>
    intro rank acc line hmem hblank
    rcases hs : py_split l with _ | ⟨token, fields⟩
    · simp only [parse_file_aux, hs]
    · simp only [parse_file_aux, hs]
      rcases List.mem_cons.mp hmem with hl | hrest
    
      · subst hl
        rw [hblank] at hs
        exact List.noConfusion hs
      · exact ih _ _ line hrest hblank

theorem parse_loop1_blank :
    ∀ (files : List (String × List String))
      (acc : List (String × List (String × Nat)))
      (filename : String) (lines : List String) (line : String),
      (filename, lines) ∈ files →
      (alist_get DICTIONARIES (splitext filename).1).isSome = true →
      line ∈ lines → py_split line = [] →
      parse_loop1 files acc = .error .indexError := by
  intro files
  induction files with
  | nil =>
    intro acc filename lines line hmem _ _ _
    simp at hmem
  | cons f rest ih =>
    intro acc filename lines line hmem hconf hline hblank
    obtain ⟨fn, ls⟩ := f
    rcases List.mem_cons.mp hmem with hhead | htail
    · have hfn : fn = filename := (Prod.mk.inj hhead.symm).1
      have hls : ls = lines := (Prod.mk.inj hhead.symm).2
      subst hfn
      subst hls
      rcases hd : alist_get DICTIONARIES (splitext fn).1 with _ | d
      · rw [hd] at hconf
        exact Bool.noConfusion hconf
      · have herr := parse_file_aux_blank ls 1 [] line hline hblank
        simp only [parse_loop1, hd, herr]
    · rcases hd : alist_get DICTIONARIES (splitext fn).1 with _ | d
      · simp only [parse_loop1, hd]
        exact ih acc filename lines line htail hconf hline hblank
      · rcases hp : parse_file_aux ls 1 [] with e | t2r
        · have he : e = .indexError := parse_file_aux_error_kind ls 1 [] e hp
          subst he
          simp only [parse_loop1, hd, hp]
        · simp only [parse_loop1, hd, hp]
          exact ih _ filename lines line htail hconf hline hblank

/-- C10: a matched input file containing a line with no whitespace-delimited
field makes the loader raise an uncaught IndexError at `line.split()[0]`
(the run aborts; the line is neither skipped nor warned about), so the
loader presumes every line of every matched file has at least one field. -/
theorem blank_line_raises_index_error
    (files : List (String × List String)) (filename : String)
    (lines : List String) (line : String)
    (hfile : (filename, lines) ∈ files)
    (hconf : (alist_get DICTIONARIES (splitext filename).1).isSome = true)
    (hline : line ∈ lines) (hblank : py_split line = []) :
    parse_frequency_lists files = .error .indexError := by
  have h1 := parse_loop1_blank files [] filename lines line hfile hconf hline
    hblank
  simp only [parse_frequency_lists, h1]

/-- Witness for C10: a passwords file whose second line is only spaces. -/
theorem blank_line_raises_index_error_witness :
    ((("passwords.txt", ["abc", "   "]) ∈
        [(("passwords.txt" : String), ["abc", "   "])]) ∧
      (alist_get DICTIONARIES (splitext "passwords.txt").1).isSome = true ∧
      ("   " : String) ∈ ["abc", "   "] ∧ py_split "   " = []) ∧
    parse_frequency_lists [("passwords.txt", ["abc", "   "])] =
      .error .indexError :=
  ⟨⟨by decide, by decide, by decide, by decide⟩,
    blank_line_raises_index_error [("passwords.txt", ["abc", "   "])]
      "passwords.txt" ["abc", "   "] "   " (by decide) (by decide) (by decide)
      (by decide)⟩

/-- C3 fails on the code: a file carrying the same token on two lines is
loaded without any error — the duplicate is silently overwritten, the loaded
mapping keeps only the later rank (rank 2 here), and the full run completes;
the `same token occurs multiple times` assertion in
`filter_frequency_lists` can never fire for a within-file duplicate because
the loader's dict assignment has already collapsed it. -/
theorem duplicate_token_silently_overwritten :
    parse_file_aux ["abc", "abc"] 1 [] = .ok [("abc", 2)] ∧
    parse_frequency_lists
        [("us_tv_and_film.txt", ["aaaa"]), ("english_wikipedia.txt", ["bbbb"]),
         ("passwords.txt", ["abc", "abc"]), ("surnames.txt", ["cccc"]),
         ("male_names.txt", ["dddd"]), ("female_names.txt", ["eeee"])] =
      .ok [("us_tv_and_film", [("aaaa", 1)]),
           ("english_wikipedia", [("bbbb", 1)]),
           ("passwords", [("abc", 2)]), ("surnames", [("cccc", 1)]),
           ("male_names", [("dddd", 1)]), ("female_names", [("eeee", 1)])] ∧
    filter_frequency_lists
        [("us_tv_and_film", [("aaaa", 1)]), ("english_wikipedia", [("bbbb", 1)]),
         ("passwords", [("abc", 2)]), ("surnames", [("cccc", 1)]),
         ("male_names", [("dddd", 1)]), ("female_names", [("eeee", 1)])] =
      some [("us_tv_and_film", ["aaaa"]), ("english_wikipedia", ["bbbb"]),
            ("passwords", ["abc"]), ("surnames", ["cccc"]),
            ("male_names", ["dddd"]), ("female_names", ["eeee"])] :=
  ⟨rfl, rfl, by decide⟩

/-- C5 fails on the code: with dictionary "passwords" the only loaded file,
the warning loop for the missing configured names reads the undefined
variable `freq_list` and the loader aborts with an uncaught NameError
instead of warning and continuing. -/
theorem missing_configured_name_raises_name_error :
    parse_frequency_lists [("passwords.txt", ["hello"])] =
      .error .nameError := rfl

/-- C9: with an argument count other than exactly two positional arguments
(three entries of `sys.argv` counting the script name), `main` prints the
usage text to standard output and exits with code 0, before any loading,
filtering, or writing. -/
theorem wrong_arg_count_prints_usage_and_exits_zero (argv : List String)
    (h : argv.length ≠ 3) : main_action argv = .printUsageAndExit 0 := by
  rcases argv with _ | ⟨a, _ | ⟨b, _ | ⟨c, _ | ⟨d, rest⟩⟩⟩⟩
  · rfl
  · rfl
  · rfl
  · exact absurd rfl h
  · rfl

/-- Witness for C9 with a bare script invocation. -/
theorem wrong_arg_count_prints_usage_and_exits_zero_witness :
    (["./build_frequency_lists.py"] : List String).length ≠ 3 ∧
    main_action ["./build_frequency_lists.py"] = .printUsageAndExit 0 :=
  ⟨by decide,
    wrong_arg_count_prints_usage_and_exits_zero
      ["./build_frequency_lists.py"] (by decide)⟩

/-- C4: an output path whose (lowercased) extension is neither `.cpp` nor
`.hpp` selects the module (coffee) writer, and that writer emits, for every
dictionary, the mapping entry from its name to the comma-joined,
quote-delimited literal produced by `to_kv`. -/
theorem other_extension_selects_module_format (output_file : String)
    (freq_lists : List (String × List String))
    (h1 : (splitext (py_lower output_file)).2 ≠ ".cpp")
    (h2 : (splitext (py_lower output_file)).2 ≠ ".hpp") :
    select_output_fn output_file = .coffee ∧
    ∀ p ∈ freq_lists, to_kv p.2 p.1 ∈ output_coffee_lines freq_lists := by
  constructor
  · simp only [select_output_fn, if_neg h1, if_neg h2]
  · intro p hp
    exact List.mem_map_of_mem _ hp

/-- Witness for C4 with a `.coffee` output path. -/
theorem other_extension_selects_module_format_witness :
    ((splitext (py_lower "frequency_lists.coffee")).2 ≠ ".cpp" ∧
      (splitext (py_lower "frequency_lists.coffee")).2 ≠ ".hpp") ∧
    (select_output_fn "frequency_lists.coffee" = .coffee ∧
      ∀ p ∈ [(("passwords" : String), ["hello", "world"])],
        to_kv p.2 p.1 ∈
          output_coffee_lines [("passwords", ["hello", "world"])]) :=
  ⟨⟨by decide, by decide⟩,
    other_extension_selects_module_format "frequency_lists.coffee"
      [("passwords", ["hello", "world"])] (by decide) (by decide)⟩

end BuildFrequencyLists
